import Mathlib

set_option maxHeartbeats 1000000

/-!
Verification of the `piomux` process-output fan-out server.

The development shallowly embeds the two components the claims are about:

* `RingBuffer` mirrors `src/ring_buffer.rs`: a fixed-capacity circular byte
  store with a `cursor` (physical index of the oldest retained byte, the
  Rust `cursor` field), a `len` field, and a backing `data` list of length
  `C` standing for the `[MaybeUninit<T>; CAPACITY]` array.  Bytes are
  modelled as `Nat`; uninitialized cells hold an unspecified value (the
  initial junk is `0`) and are never exposed by the verified operations.
  Rust's `RingBufferCursor` is a plain `Nat` kept below `C`; its `Add`
  instance `(inner + rhs) % CAPACITY` is inlined as `(c + n) % C`.

* The server model mirrors `src/server.rs`: a connection (from
  `src/connection.rs`) is reduced to its ring-buffer cursor — its sink is
  external I/O, represented by an oracle giving each `poll_write_vectored`
  / `poll_read` outcome.  The connection table (`slab::Slab`) is a list of
  `Option` slots indexed by connection id.
-/

/-- Overwrite the entries of `data` starting at position `pos` with the
bytes `w`, in order.  This models the caller of `unused_slices` filling a
returned mutable region (and `ReadBuf` filling a prefix of it). -/
def setAt (data : List Nat) (pos : Nat) (w : List Nat) : List Nat :=
  data.take pos ++ w ++ data.drop (pos + w.length)

theorem setAt_nil (data : List Nat) (pos : Nat) : setAt data pos [] = data := by
  simp [setAt]

theorem setAt_length (data w : List Nat) (pos : Nat) (h : pos + w.length ≤ data.length) :
    (setAt data pos w).length = data.length := by
  simp [setAt]
  omega

theorem setAt_getElem? (data w : List Nat) (pos i : Nat) (h : pos + w.length ≤ data.length) :
    (setAt data pos w)[i]? =
      if pos ≤ i ∧ i < pos + w.length then w[i - pos]? else data[i]? := by
  have hp : pos ≤ data.length := by omega
  have hlen1 : (data.take pos ++ w).length = pos + w.length := by
    simp [Nat.min_eq_left hp]
  unfold setAt
  rw [List.getElem?_append, hlen1]
  rcases Nat.lt_or_ge i (pos + w.length) with h2 | h2
  · rw [if_pos h2, List.getElem?_append, List.length_take, Nat.min_eq_left hp]
    rcases Nat.lt_or_ge i pos with h1 | h1
    · rw [if_pos h1, List.getElem?_take, if_pos h1, if_neg (by omega)]
    · rw [if_neg (by omega), if_pos ⟨h1, h2⟩]
  · rw [if_neg (by omega), List.getElem?_drop, if_neg (by omega)]
    congr 1
    omega

/-! ## Ring buffer (`src/ring_buffer.rs`) -/

/-- Mirrors `RingBuffer<T, CAPACITY>`: `data` is the backing array (length
`C`), `cursor` the physical start index, `len` the number of valid bytes. -/
structure RingBuffer (C : Nat) where
  data : List Nat
  cursor : Nat
  len : Nat
  deriving DecidableEq, Repr

namespace RingBuffer

variable {C : Nat}

/-- Mirrors `RingBuffer::new()`; the uninitialized backing array is junk,
modelled as zeros. -/
def new (C : Nat) : RingBuffer C :=
  { data := List.replicate C 0, cursor := 0, len := 0 }

/-- Mirrors `is_empty`. -/
def is_empty (rb : RingBuffer C) : Bool :=
  rb.len = 0

/-- Mirrors `is_full`. -/
def is_full (rb : RingBuffer C) : Bool :=
  rb.len = C

/-- Mirrors `start()`: the cursor bounding valid data from below. -/
def start (rb : RingBuffer C) : Nat :=
  rb.cursor

/-- Mirrors `end()` (`end` is a Lean keyword): `self.cursor + self.len`
through the cursor's modular `Add` instance. -/
def endPos (rb : RingBuffer C) : Nat :=
  (rb.cursor + rb.len) % C

/-- Mirrors `unused_slices`, with each of the two returned mutable regions
represented by its physical position and length:
`data[end..]` is `(end, C - end)`, `data[..start]` is `(0, start)`,
`data[end..start]` is `(end, start - end)`, `&mut []` is `(0, 0)`. -/
def unused_slices (rb : RingBuffer C) : (Nat × Nat) × (Nat × Nat) :=
  if rb.is_empty ∨ rb.start < rb.endPos then
    ((rb.endPos, C - rb.endPos), (0, rb.start))
  else ((rb.endPos, rb.start - rb.endPos), (0, 0))

/-- Mirrors `slices_from`: the two returned `&[u8]` regions as byte lists.
`data[a..b]` is `(data.drop a).take (b - a)`, `data[a..]` is `data.drop a`,
`data[..b]` is `data.take b`. -/
def slices_from (rb : RingBuffer C) (cursor : Nat) : List Nat × List Nat :=
  if rb.is_empty ∨ rb.start < rb.endPos then
    if rb.start ≤ cursor ∧ cursor < rb.endPos then
      ((rb.data.drop cursor).take (rb.endPos - cursor), [])
    else ([], [])
  else
    if rb.start ≤ cursor then (rb.data.drop cursor, rb.data.take rb.endPos)
    else if cursor < rb.endPos then ((rb.data.drop cursor).take (rb.endPos - cursor), [])
    else ([], [])

/-- Mirrors `assume_init`: `self.len = min(self.len + n, CAPACITY)`. -/
def assume_init (rb : RingBuffer C) (n : Nat) : RingBuffer C :=
  { rb with len := min (rb.len + n) C }

/-- Mirrors `remove`: clamp `n` to `len`, advance the cursor modularly,
shrink `len`. -/
def remove (rb : RingBuffer C) (n : Nat) : RingBuffer C :=
  { rb with
    cursor := (rb.cursor + min n rb.len) % C
    len := rb.len - min n rb.len }

/-- Concatenation of the two regions returned by `slices_from`. -/
def slicesCat (rb : RingBuffer C) (cursor : Nat) : List Nat :=
  (rb.slices_from cursor).1 ++ (rb.slices_from cursor).2

/-- Total length of the two regions returned by `slices_from`. -/
def slicesTotal (rb : RingBuffer C) (cursor : Nat) : Nat :=
  (rb.slices_from cursor).1.length + (rb.slices_from cursor).2.length

/-- Total length of the two regions returned by `unused_slices`. -/
def unusedTotal (rb : RingBuffer C) : Nat :=
  (rb.unused_slices).1.2 + (rb.unused_slices).2.2

/-- The caller-side write step of the producer: fill the regions returned
by `unused_slices` with the bytes `w`, in order (first region first), then
`assume_init (w.length)`.  Well-formed use has `w.length ≤ C - len`. -/
def writeBytes (rb : RingBuffer C) (w : List Nat) : RingBuffer C :=
  ({ rb with
      data := setAt (setAt rb.data rb.unused_slices.1.1 (w.take rb.unused_slices.1.2))
        rb.unused_slices.2.1 (w.drop rb.unused_slices.1.2) } : RingBuffer C).assume_init
    w.length

/-- Structural well-formedness maintained by all operations. -/
def WF (rb : RingBuffer C) : Prop :=
  rb.data.length = C ∧ rb.cursor < C ∧ rb.len ≤ C

instance (rb : RingBuffer C) : Decidable rb.WF :=
  decidable_of_iff (rb.data.length = C ∧ rb.cursor < C ∧ rb.len ≤ C) Iff.rfl

theorem is_empty_iff (rb : RingBuffer C) : rb.is_empty ↔ rb.len = 0 := by
  simp [is_empty]

theorem is_full_iff (rb : RingBuffer C) : rb.is_full ↔ rb.len = C := by
  simp [is_full]

theorem endPos_eq {rb : RingBuffer C} (h : rb.WF) :
    rb.endPos =
      if rb.cursor + rb.len < C then rb.cursor + rb.len else rb.cursor + rb.len - C := by
  obtain ⟨hdata, hc, hl⟩ := h
  unfold endPos
  split
  · exact Nat.mod_eq_of_lt (by omega)
  · rw [Nat.mod_eq_sub_mod (by omega)]
    exact Nat.mod_eq_of_lt (by omega)

/-- Closed-form branch characterization of `slices_from` for well-formed
buffers: the first branch of the source is taken exactly when
`cursor + len < C` (data contiguous or empty), the second when the valid
range wraps (including the full buffer). -/
theorem slices_from_eq {rb : RingBuffer C} (h : rb.WF) (c : Nat) :
    rb.slices_from c =
      if rb.cursor + rb.len < C then
        if rb.cursor ≤ c ∧ c < rb.cursor + rb.len then
          ((rb.data.drop c).take (rb.cursor + rb.len - c), [])
        else ([], [])
      else
        if rb.cursor ≤ c then (rb.data.drop c, rb.data.take (rb.cursor + rb.len - C))
        else if c < rb.cursor + rb.len - C then
          ((rb.data.drop c).take (rb.cursor + rb.len - C - c), [])
        else ([], []) := by
  obtain ⟨hdata, hc, hl⟩ := h
  unfold slices_from start
  rcases Nat.lt_or_ge (rb.cursor + rb.len) C with hce | hce
  · have he : rb.endPos = rb.cursor + rb.len := by
      unfold endPos
      exact Nat.mod_eq_of_lt hce
    rw [he, if_pos hce,
      if_pos (show rb.is_empty ∨ rb.cursor < rb.cursor + rb.len by
        simp only [is_empty_iff]
        omega)]
  · have he : rb.endPos = rb.cursor + rb.len - C := by
      unfold endPos
      rw [Nat.mod_eq_sub_mod (by omega)]
      exact Nat.mod_eq_of_lt (by omega)
    rw [he,
      if_neg (show ¬(rb.is_empty ∨ rb.cursor < rb.cursor + rb.len - C) by
        simp only [is_empty_iff]
        push_neg
        omega),
      if_neg (show ¬(rb.cursor + rb.len < C) by omega)]

/-- Closed-form branch characterization of `unused_slices` for well-formed
buffers. -/
theorem unused_slices_eq {rb : RingBuffer C} (h : rb.WF) :
    rb.unused_slices =
      if rb.cursor + rb.len < C then
        ((rb.cursor + rb.len, C - (rb.cursor + rb.len)), (0, rb.cursor))
      else
        ((rb.cursor + rb.len - C, rb.cursor - (rb.cursor + rb.len - C)), (0, 0)) := by
  obtain ⟨hdata, hc, hl⟩ := h
  unfold unused_slices start
  rcases Nat.lt_or_ge (rb.cursor + rb.len) C with hce | hce
  · have he : rb.endPos = rb.cursor + rb.len := by
      unfold endPos
      exact Nat.mod_eq_of_lt hce
    rw [he, if_pos hce,
      if_pos (show rb.is_empty ∨ rb.cursor < rb.cursor + rb.len by
        simp only [is_empty_iff]
        omega)]
  · have he : rb.endPos = rb.cursor + rb.len - C := by
      unfold endPos
      rw [Nat.mod_eq_sub_mod (by omega)]
      exact Nat.mod_eq_of_lt (by omega)
    rw [he,
      if_neg (show ¬(rb.is_empty ∨ rb.cursor < rb.cursor + rb.len - C) by
        simp only [is_empty_iff]
        push_neg
        omega),
      if_neg (show ¬(rb.cursor + rb.len < C) by omega)]

/-- Abstraction invariant: `content` is the list of currently valid logical
bytes, logical offset `d` living at physical index `(cursor + d) % C`. -/
def Inv (rb : RingBuffer C) (content : List Nat) : Prop :=
  rb.WF ∧ rb.len = content.length ∧
    ∀ d, d < content.length → rb.data[(rb.cursor + d) % C]? = content[d]?

theorem Inv_new (C : Nat) (hC : 0 < C) : (new C).Inv [] := by
  refine ⟨⟨?_, ?_, ?_⟩, rfl, ?_⟩
  · simp [new]
  · simpa [new] using hC
  · simp [new]
  · intro d hd
    simp at hd

/-- The total length of the two regions handed out by `slices_from` at a
cursor that sits `d` logical positions past `start` is `len - d`. -/
theorem slicesTotal_valid {rb : RingBuffer C} (h : rb.WF) (d : Nat) (hdl : d ≤ rb.len)
    (hdC : d < C) : rb.slicesTotal ((rb.cursor + d) % C) = rb.len - d := by
  obtain ⟨hdata, hc, hl⟩ := h
  unfold slicesTotal
  rw [slices_from_eq ⟨hdata, hc, hl⟩]
  rcases Nat.lt_or_ge (rb.cursor + d) C with hsd | hsd
  · rw [Nat.mod_eq_of_lt hsd]
    rcases Nat.lt_or_ge (rb.cursor + rb.len) C with hce | hce
    · rw [if_pos hce]
      rcases Nat.lt_or_ge d rb.len with hd | hd
      · rw [if_pos ⟨by omega, by omega⟩]
        simp [List.length_take, List.length_drop, hdata]
        omega
      · rw [if_neg (by omega)]
        simp
        omega
    · rw [if_neg (by omega), if_pos (by omega : rb.cursor ≤ rb.cursor + d)]
      simp [List.length_take, List.length_drop, hdata]
      omega
  · have hcur : (rb.cursor + d) % C = rb.cursor + d - C := by
      rw [Nat.mod_eq_sub_mod (by omega)]
      exact Nat.mod_eq_of_lt (by omega)
    rw [hcur, if_neg (by omega), if_neg (by omega)]
    rcases Nat.lt_or_ge d rb.len with hd | hd
    · rw [if_pos (by omega)]
      simp [List.length_take, List.length_drop, hdata]
      omega
    · rw [if_neg (by omega)]
      simp
      omega

/-- The total length of the two regions handed out by `unused_slices` is
the free capacity. -/
theorem unusedTotal_eq {rb : RingBuffer C} (h : rb.WF) : rb.unusedTotal = C - rb.len := by
  obtain ⟨hdata, hc, hl⟩ := h
  unfold unusedTotal
  rw [unused_slices_eq ⟨hdata, hc, hl⟩]
  split_ifs <;> simp <;> omega

/-- Round-trip reading: at a cursor `d` logical positions past `start`
(`d < len`), the two regions returned by `slices_from`, concatenated, are
exactly the valid logical bytes from offset `d` on. -/
theorem slicesCat_valid {rb : RingBuffer C} {content : List Nat} (hinv : rb.Inv content)
    (d : Nat) (hd : d < rb.len) :
    rb.slicesCat ((rb.cursor + d) % C) = content.drop d := by
  obtain ⟨⟨hdata, hc, hl⟩, hlen, hpt⟩ := hinv
  apply List.ext_getElem?
  intro j
  rw [List.getElem?_drop]
  unfold slicesCat
  rw [slices_from_eq ⟨hdata, hc, hl⟩]
  rcases Nat.lt_or_ge (rb.cursor + rb.len) C with hce | hce
  · rw [if_pos hce, Nat.mod_eq_of_lt (by omega), if_pos ⟨by omega, by omega⟩]
    simp only [List.append_nil, List.getElem?_take, List.getElem?_drop]
    rcases Nat.lt_or_ge j (rb.cursor + rb.len - (rb.cursor + d)) with hj | hj
    · rw [if_pos hj]
      have h1 := hpt (d + j) (by omega)
      rw [Nat.mod_eq_of_lt (by omega), ← Nat.add_assoc] at h1
      exact h1
    · rw [if_neg (by omega)]
      exact (List.getElem?_eq_none (by omega)).symm
  · rcases Nat.lt_or_ge (rb.cursor + d) C with hsd | hsd
    · rw [if_neg (by omega), Nat.mod_eq_of_lt hsd,
        if_pos (by omega : rb.cursor ≤ rb.cursor + d),
        List.getElem?_append, List.length_drop, hdata, List.getElem?_drop]
      rcases Nat.lt_or_ge j (C - (rb.cursor + d)) with hj | hj
      · rw [if_pos hj]
        have h1 := hpt (d + j) (by omega)
        rw [Nat.mod_eq_of_lt (by omega), ← Nat.add_assoc] at h1
        exact h1
      · rw [if_neg (by omega), List.getElem?_take]
        rcases Nat.lt_or_ge (j - (C - (rb.cursor + d))) (rb.cursor + rb.len - C) with hj2 | hj2
        · rw [if_pos hj2]
          have h1 := hpt (d + j) (by omega)
          have hmod : (rb.cursor + (d + j)) % C = j - (C - (rb.cursor + d)) := by
            rw [Nat.mod_eq_sub_mod (by omega), Nat.mod_eq_of_lt (by omega)]
            omega
          rw [hmod] at h1
          exact h1
        · rw [if_neg (by omega)]
          exact (List.getElem?_eq_none (by omega)).symm
    · have hcur : (rb.cursor + d) % C = rb.cursor + d - C := by
        rw [Nat.mod_eq_sub_mod (by omega)]
        exact Nat.mod_eq_of_lt (by omega)
      rw [if_neg (by omega), hcur, if_neg (by omega), if_pos (by omega)]
      simp only [List.append_nil, List.getElem?_take, List.getElem?_drop]
      rcases Nat.lt_or_ge j (rb.cursor + rb.len - C - (rb.cursor + d - C)) with hj | hj
      · rw [if_pos hj]
        have h1 := hpt (d + j) (by omega)
        have hmod : (rb.cursor + (d + j)) % C = rb.cursor + d - C + j := by
          rw [Nat.mod_eq_sub_mod (by omega), Nat.mod_eq_of_lt (by omega)]
          omega
        rw [hmod] at h1
        exact h1
      · rw [if_neg (by omega)]
        exact (List.getElem?_eq_none (by omega)).symm

theorem Inv_remove {rb : RingBuffer C} {content : List Nat} (hinv : rb.Inv content)
    (n : Nat) : (rb.remove n).Inv (content.drop n) := by
  obtain ⟨⟨hdata, hc, hl⟩, hlen, hpt⟩ := hinv
  have hC : 0 < C := by omega
  refine ⟨⟨hdata, Nat.mod_lt _ hC, by simp [remove]; omega⟩, ?_, ?_⟩
  · simp [remove, List.length_drop]
    omega
  · intro d hd
    rw [List.length_drop] at hd
    have hn : min n rb.len = n := by omega
    simp only [remove, hn]
    rw [List.getElem?_drop, Nat.mod_add_mod, Nat.add_assoc]
    exact hpt (n + d) (by omega)

/-- Filling the regions returned by `unused_slices` with `w` (in order)
and then calling `assume_init (w.length)` appends `w` to the logical
content, provided `w` fits in the free capacity. -/
theorem Inv_writeBytes {rb : RingBuffer C} {content : List Nat} (hinv : rb.Inv content)
    {w : List Nat} (hw : w.length ≤ C - rb.len) :
    (rb.writeBytes w).Inv (content ++ w) := by
  obtain ⟨⟨hdata, hc, hl⟩, hlen, hpt⟩ := hinv
  have hus := @unused_slices_eq C rb ⟨hdata, hc, hl⟩
  unfold writeBytes assume_init
  rw [hus]
  rcases Nat.lt_or_ge (rb.cursor + rb.len) C with hce | hce
  · rw [if_pos hce]
    simp only
    have hl1 : (w.take (C - (rb.cursor + rb.len))).length =
        min (C - (rb.cursor + rb.len)) w.length := by
      simp [Nat.min_comm]
    have hl2 : (w.drop (C - (rb.cursor + rb.len))).length =
        w.length - (C - (rb.cursor + rb.len)) := by
      simp
    have hin : rb.cursor + rb.len + (w.take (C - (rb.cursor + rb.len))).length ≤
        rb.data.length := by
      rw [hl1, hdata]
      omega
    have hout : 0 + (w.drop (C - (rb.cursor + rb.len))).length ≤
        (setAt rb.data (rb.cursor + rb.len) (w.take (C - (rb.cursor + rb.len)))).length := by
      rw [setAt_length _ _ _ hin, hl2, hdata]
      omega
    refine ⟨⟨?_, hc, by simp⟩, ?_, ?_⟩
    · rw [setAt_length _ _ _ hout, setAt_length _ _ _ hin, hdata]
    · simp
      omega
    · intro d hd
      rw [List.length_append, ← hlen] at hd
      rw [setAt_getElem? _ _ _ _ hout, setAt_getElem? _ _ _ _ hin, List.getElem?_append]
      rcases Nat.lt_or_ge d rb.len with hdl | hdl
      · have hmod : (rb.cursor + d) % C = rb.cursor + d := Nat.mod_eq_of_lt (by omega)
        rw [hmod]
        rw [if_neg (by rw [hl2]; omega), if_neg (by rw [hl1]; omega), if_pos (by omega)]
        have h1 := hpt d (by omega)
        rw [hmod] at h1
        exact h1
      · rcases Nat.lt_or_ge (rb.cursor + d) C with hsd | hsd
        · have hmod : (rb.cursor + d) % C = rb.cursor + d := Nat.mod_eq_of_lt hsd
          rw [hmod]
          rw [if_neg (by rw [hl2]; omega), if_pos ⟨by omega, by rw [hl1]; omega⟩,
            if_neg (by omega), List.getElem?_take, if_pos (by omega)]
          congr 1
          omega
        · have hmod : (rb.cursor + d) % C = rb.cursor + d - C := by
            rw [Nat.mod_eq_sub_mod (by omega)]
            exact Nat.mod_eq_of_lt (by omega)
          rw [hmod]
          rw [if_pos ⟨by omega, by rw [hl2]; omega⟩, List.getElem?_drop,
            if_neg (by omega)]
          congr 1
          omega
  · rw [if_neg (by omega)]
    simp only
    have hfree : rb.cursor - (rb.cursor + rb.len - C) = C - rb.len := by omega
    have hl1 : (w.take (rb.cursor - (rb.cursor + rb.len - C))).length = w.length := by
      simp [hfree]
      omega
    have hl2 : (w.drop (rb.cursor - (rb.cursor + rb.len - C))).length = 0 := by
      simp [hfree]
      omega
    have hin : rb.cursor + rb.len - C +
        (w.take (rb.cursor - (rb.cursor + rb.len - C))).length ≤ rb.data.length := by
      rw [hl1, hdata]
      omega
    have hout : 0 + (w.drop (rb.cursor - (rb.cursor + rb.len - C))).length ≤
        (setAt rb.data (rb.cursor + rb.len - C)
          (w.take (rb.cursor - (rb.cursor + rb.len - C)))).length := by
      rw [setAt_length _ _ _ hin, hl2]
      omega
    refine ⟨⟨?_, hc, by simp⟩, ?_, ?_⟩
    · rw [setAt_length _ _ _ hout, setAt_length _ _ _ hin, hdata]
    · simp
      omega
    · intro d hd
      rw [List.length_append, ← hlen] at hd
      rw [setAt_getElem? _ _ _ _ hout, setAt_getElem? _ _ _ _ hin, List.getElem?_append]
      rw [if_neg (by rw [hl2]; omega)]
      rcases Nat.lt_or_ge d rb.len with hdl | hdl
      · rcases Nat.lt_or_ge (rb.cursor + d) C with hsd | hsd
        · have hmod : (rb.cursor + d) % C = rb.cursor + d := Nat.mod_eq_of_lt hsd
          rw [hmod, if_neg (by rw [hl1]; omega), if_pos (by omega)]
          have h1 := hpt d (by omega)
          rw [hmod] at h1
          exact h1
        · have hmod : (rb.cursor + d) % C = rb.cursor + d - C := by
            rw [Nat.mod_eq_sub_mod (by omega)]
            exact Nat.mod_eq_of_lt (by omega)
          rw [hmod, if_neg (by rw [hl1]; omega), if_pos (by omega)]
          have h1 := hpt d (by omega)
          rw [hmod] at h1
          exact h1
      · have hmod : (rb.cursor + d) % C = rb.cursor + d - C := by
          rw [Nat.mod_eq_sub_mod (by omega)]
          exact Nat.mod_eq_of_lt (by omega)
        rw [hmod, if_pos ⟨by omega, by rw [hl1]; omega⟩, if_neg (by omega),
          List.getElem?_take, if_pos (by omega)]
        congr 1
        omega

theorem two_window_mod {x C : Nat} (hx : x < 2 * C) :
    x % C = if x < C then x else x - C := by
  split
  · exact Nat.mod_eq_of_lt (by omega)
  · rw [Nat.mod_eq_sub_mod (by omega)]
    exact Nat.mod_eq_of_lt (by omega)

/-- At a physical cursor not reachable as `start + d` for any `d < len`,
`slices_from` returns two empty regions. -/
theorem slices_from_invalid {rb : RingBuffer C} (h : rb.WF) (c : Nat) (hcC : c < C)
    (hinv : ∀ d, d < rb.len → c ≠ (rb.cursor + d) % C) :
    rb.slices_from c = ([], []) := by
  obtain ⟨hdata, hc, hl⟩ := h
  rw [slices_from_eq ⟨hdata, hc, hl⟩]
  rcases Nat.lt_or_ge (rb.cursor + rb.len) C with hce | hce
  · rw [if_pos hce, if_neg (fun hcc =>
      hinv (c - rb.cursor) (by omega) (by rw [Nat.mod_eq_of_lt (by omega)]; omega))]
  · rw [if_neg (by omega)]
    rcases Nat.lt_or_ge c rb.cursor with h1 | h1
    · rw [if_neg (by omega)]
      rcases Nat.lt_or_ge c (rb.cursor + rb.len - C) with h2 | h2
      · exact absurd
          (by
            rw [show rb.cursor + (c + C - rb.cursor) = c + C by omega, Nat.add_mod_right,
              Nat.mod_eq_of_lt hcC])
          (hinv (c + C - rb.cursor) (by omega))
      · rw [if_neg (by omega)]
    · exact absurd (by rw [Nat.mod_eq_of_lt (by omega)]; omega)
        (hinv (c - rb.cursor) (by omega))

/-- When the buffer is not full, `slices_from end()` returns two empty
regions. -/
theorem slices_from_endPos_empty {rb : RingBuffer C} (h : rb.WF) (hnf : ¬ rb.is_full) :
    rb.slices_from rb.endPos = ([], []) := by
  have hWF := h
  obtain ⟨hdata, hc, hl⟩ := h
  rw [is_full_iff] at hnf
  apply slices_from_invalid hWF _ (Nat.mod_lt _ (by omega))
  intro d hd hEq
  rw [two_window_mod (by omega), two_window_mod (by omega)] at hEq
  split_ifs at hEq <;> omega

end RingBuffer

/-! ## Sequences of producer/consumer operations on the ring buffer -/

/-- An externally driven buffer operation: a producer write
(`unused_slices` → fill in order → `assume_init`) or a consumer-side
`remove`. -/
inductive BufOp where
  | write (w : List Nat)
  | drop (n : Nat)
  deriving DecidableEq, Repr

def applyOp {C : Nat} (rb : RingBuffer C) : BufOp → RingBuffer C
  | .write w => rb.writeBytes w
  | .drop n => rb.remove n

def applyOps {C : Nat} (rb : RingBuffer C) (ops : List BufOp) : RingBuffer C :=
  ops.foldl applyOp rb

/-- Every write in the sequence fits in the free capacity at its point, as
the `assume_init` contract requires. -/
def opsOK {C : Nat} (rb : RingBuffer C) : List BufOp → Bool
  | [] => true
  | op :: t =>
    (match op with
     | .write w => decide (w.length ≤ C - rb.len)
     | .drop _ => true) && opsOK (applyOp rb op) t

/-- The logical bytes held after a sequence of operations: writes append,
removes drop from the front. -/
def contentOf (content : List Nat) : List BufOp → List Nat
  | [] => content
  | .write w :: t => contentOf (content ++ w) t
  | .drop n :: t => contentOf (content.drop n) t

theorem Inv_applyOps {C : Nat} {rb : RingBuffer C} {content : List Nat}
    (hinv : rb.Inv content) {ops : List BufOp} (hok : opsOK rb ops = true) :
    (applyOps rb ops).Inv (contentOf content ops) := by
  induction ops generalizing rb content with
  | nil => exact hinv
  | cons op t ih =>
    cases op with
    | write w =>
      rw [opsOK, Bool.and_eq_true, decide_eq_true_eq] at hok
      exact ih (RingBuffer.Inv_writeBytes hinv hok.1) hok.2
    | drop n =>
      rw [opsOK, Bool.true_and] at hok
      exact ih (RingBuffer.Inv_remove hinv n) hok

/-- C1: Ring buffer round-trip data integrity.  After any sequence of
`unused_slices()` → fill → `assume_init` steps (interleaved with `remove`,
which only makes the statement stronger), `slices_from` at any cursor
inside the valid logical range `[start, end)` — i.e. at
`(start + d) % C` for `d < len` — returns regions that, concatenated,
are exactly the logical bytes from offset `d` up to the end, regardless
of physical wraparound. -/
theorem ring_buffer_roundtrip (C : Nat) (hC : 0 < C) (ops : List BufOp)
    (hok : opsOK (RingBuffer.new C) ops = true) (d : Nat)
    (hd : d < (applyOps (RingBuffer.new C) ops).len) :
    (applyOps (RingBuffer.new C) ops).slicesCat
        (((applyOps (RingBuffer.new C) ops).cursor + d) % C) =
      (contentOf [] ops).drop d :=
  RingBuffer.slicesCat_valid (Inv_applyOps (RingBuffer.Inv_new C hC) hok) d hd

/-- The end-to-end example of spec §8: capacity 8, write bytes, remove 3,
write 3 more so the data wraps. -/
def rtOps : List BufOp :=
  [BufOp.write [10, 11, 12, 13, 14, 15, 16, 17], BufOp.drop 3, BufOp.write [20, 21, 22]]

theorem ring_buffer_roundtrip_witness :
    0 < 8 ∧ opsOK (RingBuffer.new 8) rtOps = true ∧
    3 < (applyOps (RingBuffer.new 8) rtOps).len ∧
    (applyOps (RingBuffer.new 8) rtOps).slicesCat
        (((applyOps (RingBuffer.new 8) rtOps).cursor + 3) % 8) =
      (contentOf [] rtOps).drop 3 :=
  ⟨by decide, by decide, by decide,
    ring_buffer_roundtrip 8 (by decide) rtOps (by decide) 3 (by decide)⟩

/-- C4 counterexample: a full buffer refutes the claim as stated.  With
capacity 4 and four bytes written, `end()` physically coincides with
`start()` and `slices_from end()` returns the entire contents (the two
regions concatenate to all four bytes), not two empty regions. -/
theorem slices_from_end_full_counterexample :
    (applyOps (RingBuffer.new 4) [BufOp.write [1, 2, 3, 4]]).slices_from
        (applyOps (RingBuffer.new 4) [BufOp.write [1, 2, 3, 4]]).endPos ≠ ([], []) ∧
    (applyOps (RingBuffer.new 4) [BufOp.write [1, 2, 3, 4]]).slicesCat
        (applyOps (RingBuffer.new 4) [BufOp.write [1, 2, 3, 4]]).endPos = [1, 2, 3, 4] := by
  constructor
  · decide
  · decide

/-- C4 (amended): whenever the buffer is NOT full, `slices_from end()`
returns two empty regions until more bytes are appended; and for every
cursor outside the currently valid logical range `[start, end)` (no
`d < len` reaches it from `start`), `slices_from` returns two empty
regions.  (When the buffer is full, `end()` coincides with `start()` and
every physical cursor is inside the valid range, so the original claim's
unconditional statement about `end()` fails — see the counterexample.) -/
theorem slices_from_outside_empty {C : Nat} (rb : RingBuffer C) (h : rb.WF) :
    (¬ rb.is_full → rb.slices_from rb.endPos = ([], [])) ∧
    (∀ c, c < C → (∀ d, d < rb.len → c ≠ (rb.cursor + d) % C) →
      rb.slices_from c = ([], [])) :=
  ⟨fun hnf => RingBuffer.slices_from_endPos_empty h hnf,
   fun c hcC hinv => RingBuffer.slices_from_invalid h c hcC hinv⟩

theorem slices_from_outside_empty_witness :
    (applyOps (RingBuffer.new 8) [BufOp.write [1, 2, 3]]).WF ∧
    ¬ (applyOps (RingBuffer.new 8) [BufOp.write [1, 2, 3]]).is_full ∧
    (applyOps (RingBuffer.new 8) [BufOp.write [1, 2, 3]]).slices_from
      (applyOps (RingBuffer.new 8) [BufOp.write [1, 2, 3]]).endPos = ([], []) :=
  ⟨by decide, by decide,
    (slices_from_outside_empty (applyOps (RingBuffer.new 8) [BufOp.write [1, 2, 3]])
      (by decide)).1 (by decide)⟩

/-- C6: slice-length accounting.  For every well-formed buffer state, the
two regions of `unused_slices` total `capacity - len`, the two regions of
`slices_from start()` total `len`, and a full buffer gets two empty
regions from `unused_slices`. -/
theorem slice_length_accounting {C : Nat} (rb : RingBuffer C) (h : rb.WF) :
    rb.unusedTotal = C - rb.len ∧
    rb.slicesTotal rb.start = rb.len ∧
    (rb.is_full → rb.unused_slices.1.2 = 0 ∧ rb.unused_slices.2.2 = 0) := by
  have hWF := h
  obtain ⟨hdata, hc, hl⟩ := h
  refine ⟨RingBuffer.unusedTotal_eq hWF, ?_, ?_⟩
  · have h0 := RingBuffer.slicesTotal_valid hWF 0 (Nat.zero_le _) (by omega)
    rw [Nat.add_zero, Nat.mod_eq_of_lt hc] at h0
    simpa [RingBuffer.start] using h0
  · intro hf
    rw [RingBuffer.is_full_iff] at hf
    rw [RingBuffer.unused_slices_eq hWF, if_neg (by omega)]
    refine ⟨by simp; omega, rfl⟩

theorem slice_length_accounting_witness :
    (applyOps (RingBuffer.new 8) rtOps).WF ∧
    (applyOps (RingBuffer.new 8) rtOps).unusedTotal =
      8 - (applyOps (RingBuffer.new 8) rtOps).len ∧
    (applyOps (RingBuffer.new 8) rtOps).slicesTotal
      (applyOps (RingBuffer.new 8) rtOps).start = (applyOps (RingBuffer.new 8) rtOps).len :=
  ⟨by decide, (slice_length_accounting (applyOps (RingBuffer.new 8) rtOps) (by decide)).1,
    (slice_length_accounting (applyOps (RingBuffer.new 8) rtOps) (by decide)).2.1⟩

/-- C7: `remove` saturation.  For every buffer state and every `n`,
`remove n` advances `start` by `min n len` modulo the capacity and
decreases `len` by the same amount; with `n > len()` it behaves exactly
as `remove len()`. -/
theorem remove_saturation {C : Nat} (rb : RingBuffer C) (n : Nat) :
    (rb.remove n).cursor = (rb.cursor + min n rb.len) % C ∧
    (rb.remove n).len = rb.len - min n rb.len ∧
    (rb.len < n → rb.remove n = rb.remove rb.len) := by
  refine ⟨rfl, rfl, fun h => ?_⟩
  unfold RingBuffer.remove
  rw [Nat.min_eq_right (Nat.le_of_lt h), Nat.min_self]

theorem remove_saturation_witness :
    (applyOps (RingBuffer.new 4) [BufOp.write [1, 2, 3]]).len < 5 ∧
    (applyOps (RingBuffer.new 4) [BufOp.write [1, 2, 3]]).remove 5 =
      (applyOps (RingBuffer.new 4) [BufOp.write [1, 2, 3]]).remove 3 := by
  refine ⟨by decide, ?_⟩
  have h := (remove_saturation (applyOps (RingBuffer.new 4) [BufOp.write [1, 2, 3]]) 5).2.2
    (by decide)
  exact h

/-! ## Connection table (the external `slab` crate) -/

/-- Modelled from the spec: the connection table implementation (the
external `slab` crate) is not part of this repository's sources; spec §4.2
describes it as "insert(connection) -> id (O(1), reuses the lowest free
id), remove(id) (O(1), invalidates that id only)".  A table is a list of
slots indexed by id; `slabInsert` fills the lowest free slot, appending a
fresh slot when none is free. -/
def slabInsert {α : Type} : List (Option α) → α → List (Option α)
  | [], a => [some a]
  | none :: t, a => some a :: t
  | some b :: t, a => some b :: slabInsert t a

/-- Modelled from the spec: the id returned by `slabInsert` — the lowest
id whose slot is free. -/
def slabNextId {α : Type} : List (Option α) → Nat
  | [] => 0
  | none :: _ => 0
  | some _ :: t => slabNextId t + 1

/-- Modelled from the spec: `remove(id)` vacates exactly the slot `id`. -/
def slabRemove {α : Type} (l : List (Option α)) (i : Nat) : List (Option α) :=
  l.set i none

theorem slabNextId_free {α : Type} (l : List (Option α)) :
    (l[slabNextId l]?).getD none = none := by
  induction l with
  | nil => simp [slabNextId]
  | cons h t ih =>
    cases h with
    | none => simp [slabNextId]
    | some b => simpa [slabNextId] using ih

theorem slabNextId_below {α : Type} (l : List (Option α)) :
    ∀ j, j < slabNextId l → ∃ b, l[j]? = some (some b) := by
  induction l with
  | nil =>
    intro j hj
    simp [slabNextId] at hj
  | cons h t ih =>
    cases h with
    | none =>
      intro j hj
      simp [slabNextId] at hj
    | some b =>
      intro j hj
      cases j with
      | zero => exact ⟨b, by simp⟩
      | succ j' =>
        simpa using ih j' (by simpa [slabNextId] using hj)

theorem slabInsert_at {α : Type} (l : List (Option α)) (a : α) :
    (slabInsert l a)[slabNextId l]? = some (some a) := by
  induction l with
  | nil => simp [slabInsert, slabNextId]
  | cons h t ih =>
    cases h with
    | none => simp [slabInsert, slabNextId]
    | some b => simpa [slabInsert, slabNextId] using ih

theorem slabInsert_other {α : Type} (l : List (Option α)) (a : α) (j : Nat)
    (hj : j ≠ slabNextId l) : (slabInsert l a)[j]? = l[j]? := by
  induction l generalizing j with
  | nil =>
    cases j with
    | zero => exact absurd rfl hj
    | succ j' => simp [slabInsert]
  | cons h t ih =>
    cases h with
    | none =>
      cases j with
      | zero => exact absurd rfl hj
      | succ j' => simp [slabInsert]
    | some b =>
      cases j with
      | zero => simp [slabInsert]
      | succ j' =>
        have hj' : j' ≠ slabNextId t := by
          intro hh
          apply hj
          simp [slabNextId, hh]
        simpa [slabInsert] using ih j' hj'

theorem slabRemove_other {α : Type} (l : List (Option α)) (i j : Nat) (h : j ≠ i) :
    (slabRemove l i)[j]? = l[j]? :=
  List.getElem?_set_ne (Ne.symm h)

theorem slabRemove_at {α : Type} (l : List (Option α)) (i : Nat) (h : i < l.length) :
    (slabRemove l i)[i]? = some none := by
  rw [slabRemove, List.getElem?_set_self', List.getElem?_eq_getElem h]
  rfl

/-- C10: lowest-free-id reuse of the connection table (modelled from the
spec, the `slab` crate not being part of this repository's sources).  For
every table state — hence after every sequence of inserts and removes —
`insert` targets the lowest id not assigned to a live entry (that slot is
free and all lower ids are occupied, and the connection lands there while
every other slot is untouched), and `remove(id)` invalidates exactly the
slot `id`, leaving every other entry in place. -/
theorem slab_lowest_id_reuse {α : Type} (l : List (Option α)) (a : α) :
    ((l[slabNextId l]?).getD none = none ∧
      ∀ j, j < slabNextId l → ∃ b, l[j]? = some (some b)) ∧
    (slabInsert l a)[slabNextId l]? = some (some a) ∧
    (∀ j, j ≠ slabNextId l → (slabInsert l a)[j]? = l[j]?) ∧
    (∀ i j, j ≠ i → (slabRemove l i)[j]? = l[j]?) ∧
    (∀ i, i < l.length → (slabRemove l i)[i]? = some none) :=
  ⟨⟨slabNextId_free l, slabNextId_below l⟩, slabInsert_at l a,
    fun j hj => slabInsert_other l a j hj,
    fun i j h => slabRemove_other l i j h,
    fun i h => slabRemove_at l i h⟩

theorem slab_lowest_id_reuse_witness :
    (slabInsert [some 7, none, some 5] 9)[slabNextId
      ([some 7, none, some 5] : List (Option Nat))]? = some (some 9) ∧
    (slabRemove [some 7, none, some 5] 0)[2]? = some (some (5 : Nat)) :=
  ⟨(slab_lowest_id_reuse [some 7, none, some 5] 9).2.1,
    (slab_lowest_id_reuse [some 7, none, some 5] 9).2.2.2.1 0 2 (by decide)⟩

/-! ## Server (`src/server.rs`)

A connection (`src/connection.rs`) is reduced to its cursor; its sink and
the child's stdout are external I/O, represented by oracles.  Fatal I/O
errors are carried by `Except` error codes, matching the `?` propagation
out of `poll_write` / `poll_read`; broken pipe is distinguished as its own
outcome since `poll_write` handles it in place. -/

/-- Result of `poll_write_vectored` on one connection's sink. -/
inductive Outcome where
  | ok (k : Nat)
  | brokenPipe
  | fatal (e : Nat)
  | pending
  deriving DecidableEq, Repr

/-- Mirrors `Poll<usize>` for a successfully returning poll function. -/
inductive PollR where
  | ready (n : Nat)
  | pending
  deriving DecidableEq, Repr

/-- Server state: the shared output buffer and the connection table, each
live connection reduced to its read cursor. -/
structure SState (C : Nat) where
  buffer : RingBuffer C
  conns : List (Option Nat)
  deriving DecidableEq, Repr

/-- Mirrors `Server::listen`: a fresh buffer, and the server's own stdout
inserted as connection 0 with cursor `output_buffer.end()`. -/
def listenInit (C : Nat) : SState C :=
  { buffer := RingBuffer.new C
    conns := slabInsert [] ((RingBuffer.new C).endPos) }

/-- Mirrors the `Poll::Ready` arm of `Server::poll_accept`: insert a new
connection whose cursor is `output_buffer.end()`; the second component is
the id assigned by the table.  (The `Poll::Pending` arm leaves the state
unchanged, and a listener error aborts the poll.) -/
def pollAccept {C : Nat} (s : SState C) : SState C × Nat :=
  (⟨s.buffer, slabInsert s.conns s.buffer.endPos⟩, slabNextId s.conns)

/-- The loop of `Server::poll_write` over connection ids, starting at id
`i` with running minimum `m`: skip vacant slots; for a live connection
consult the sink's outcome — on `Ok(k)` advance its cursor by `k`
(modularly) and lower the running minimum to `min k m`; on a broken pipe
remove the connection; on any other error abort with it; on would-block
zero the minimum.  Also returns whether the
`debug_assert!(bytes_written != 0)` was violated (`true` = violated),
which in the Rust debug profile would be a panic. -/
def writeLoop {C : Nat} (oracle : Nat → Outcome) :
    List (Option Nat) → Nat → Nat → Except Nat (List (Option Nat) × Nat × Bool)
  | [], _, m => .ok ([], m, false)
  | none :: rest, i, m =>
    match writeLoop (C := C) oracle rest (i + 1) m with
    | .ok (r, m', f) => .ok (none :: r, m', f)
    | .error e => .error e
  | some cur :: rest, i, m =>
    match oracle i with
    | .ok k =>
      match writeLoop (C := C) oracle rest (i + 1) (min k m) with
      | .ok (r, m', f) => .ok (some ((cur + k) % C) :: r, m', decide (k = 0) || f)
      | .error e => .error e
    | .brokenPipe =>
      match writeLoop (C := C) oracle rest (i + 1) m with
      | .ok (r, m', f) => .ok (none :: r, m', f)
      | .error e => .error e
    | .fatal e => .error e
    | .pending =>
      match writeLoop (C := C) oracle rest (i + 1) 0 with
      | .ok (r, m', f) => .ok (some cur :: r, m', f)
      | .error e => .error e

/-- Mirrors `Server::poll_write`: empty buffer is an immediate pending;
otherwise run the loop with the minimum initialized to `len`, and if the
final minimum is positive remove that many bytes and report ready. -/
def pollWrite {C : Nat} (s : SState C) (oracle : Nat → Outcome) :
    Except Nat (SState C × PollR × Bool) :=
  if s.buffer.is_empty then .ok (s, .pending, false)
  else
    match writeLoop (C := C) oracle s.conns 0 s.buffer.len with
    | .error e => .error e
    | .ok (conns', m, f) =>
      if 0 < m then .ok (⟨s.buffer.remove m, conns'⟩, .ready m, f)
      else .ok (⟨s.buffer, conns'⟩, .pending, f)

/-- Result of one `poll_read` of the child's stdout into one unused
region: ready with the bytes placed at the region's front (`ReadBuf`
fills a prefix), pending, or an error. -/
inductive ROutcome where
  | ready (bytes : List Nat)
  | pending
  | fatal (e : Nat)
  deriving DecidableEq, Repr

/-- The loop of `Server::poll_read` over the (at most two) unused regions,
indexed from `i`: stop at the first empty region or would-block; a ready
read writes its bytes at the region's start and adds their count to the
running total.  Also returns whether `debug_assert!(bytes_read != 0)` was
violated. -/
def readLoop (ro : Nat → ROutcome) :
    List (Nat × Nat) → Nat → List Nat → Nat → Except Nat (List Nat × Nat × Bool)
  | [], _, data, total => .ok (data, total, false)
  | (p, l) :: rest, i, data, total =>
    if l = 0 then .ok (data, total, false)
    else
      match ro i with
      | .ready bytes =>
        match readLoop ro rest (i + 1) (setAt data p bytes) (total + bytes.length) with
        | .ok (d, t, f) => .ok (d, t, decide (bytes.length = 0) || f)
        | .error e => .error e
      | .pending => .ok (data, total, false)
      | .fatal e => .error e

/-- Mirrors `Server::poll_read`: read into the unused regions; if any
bytes arrived, `assume_init` the total and report ready. -/
def pollRead {C : Nat} (s : SState C) (ro : Nat → ROutcome) :
    Except Nat (SState C × PollR × Bool) :=
  match readLoop ro [s.buffer.unused_slices.1, s.buffer.unused_slices.2] 0
      s.buffer.data 0 with
  | .error e => .error e
  | .ok (data', total, f) =>
    if 0 < total then
      .ok (⟨({ s.buffer with data := data' } : RingBuffer C).assume_init total, s.conns⟩,
        .ready total, f)
    else .ok (⟨{ s.buffer with data := data' }, s.conns⟩, .pending, f)

/-- The slot of the updated connection table after one write pass, as a
function of the old slot and the sink outcome (the spec-side description
of the loop's per-connection effect; the fatal arm is unreachable for a
normally returning pass). -/
def writeSlot (C : Nat) (oracle : Nat → Outcome) (idx : Nat) :
    Option (Option Nat) → Option (Option Nat)
  | none => none
  | some none => some none
  | some (some cur) =>
    match oracle idx with
    | .ok k => some (some ((cur + k) % C))
    | .pending => some (some cur)
    | .brokenPipe => some none
    | .fatal _ => some none

theorem slots_cons {C : Nat} (oracle : Nat → Outcome) (i : Nat) (headL headR : Option Nat)
    (rest r0 : List (Option Nat))
    (h0 : some headR = writeSlot C oracle i (some headL))
    (hrest : ∀ j, r0[j]? = writeSlot C oracle (i + 1 + j) rest[j]?) :
    ∀ j, (headR :: r0)[j]? = writeSlot C oracle (i + j) (headL :: rest)[j]? := by
  intro j
  cases j with
  | zero => simpa using h0
  | succ j' =>
    rw [show i + (j' + 1) = i + 1 + j' by omega]
    simpa using hrest j'

theorem live_cons {P : Nat → Nat → Prop} (i : Nat) (headL : Option Nat)
    (rest : List (Option Nat))
    (h0 : ∀ cur, headL = some cur → P i cur)
    (hrest : ∀ j cur, rest[j]? = some (some cur) → P (i + 1 + j) cur) :
    ∀ j cur, (headL :: rest)[j]? = some (some cur) → P (i + j) cur := by
  intro j cur hj
  cases j with
  | zero =>
    simp at hj
    simpa using h0 cur hj
  | succ j' =>
    rw [show i + (j' + 1) = i + 1 + j' by omega]
    exact hrest j' cur (by simpa using hj)

theorem exists_live_cons {Q : Nat → Nat → Prop} (i : Nat) (headL : Option Nat)
    (rest : List (Option Nat)) :
    (∃ j cur, (headL :: rest)[j]? = some (some cur) ∧ Q (i + j) cur) →
    (∃ cur, headL = some cur ∧ Q i cur) ∨
      (∃ j cur, rest[j]? = some (some cur) ∧ Q (i + 1 + j) cur) := by
  rintro ⟨j, cur, hj, hq⟩
  cases j with
  | zero =>
    exact Or.inl ⟨cur, by simpa using hj, by simpa using hq⟩
  | succ j' =>
    exact Or.inr ⟨j', cur, by simpa using hj,
      by rw [show i + 1 + j' = i + (j' + 1) by omega]; exact hq⟩

theorem writeLoop_spec {C : Nat} (oracle : Nat → Outcome) (l : List (Option Nat))
    (i m : Nat) {r : List (Option Nat)} {m' : Nat} {f : Bool}
    (h : writeLoop (C := C) oracle l i m = .ok (r, m', f)) :
    (∀ j cur, l[j]? = some (some cur) → ∀ e, oracle (i + j) ≠ .fatal e) ∧
    (∀ j, r[j]? = writeSlot C oracle (i + j) l[j]?) ∧
    m' ≤ m ∧
    (∀ j cur, l[j]? = some (some cur) → ∀ k, oracle (i + j) = .ok k → m' ≤ k) ∧
    ((∃ j cur, l[j]? = some (some cur) ∧ oracle (i + j) = .pending) → m' = 0) := by
  induction l generalizing i m r m' f with
  | nil =>
    rw [writeLoop] at h
    obtain ⟨hr, hm, hf⟩ : r = [] ∧ m' = m ∧ f = false := by
      cases h
      exact ⟨rfl, rfl, rfl⟩
    subst hr hm
    refine ⟨?_, ?_, le_rfl, ?_, ?_⟩
    · intro j cur hj
      simp at hj
    · intro j
      simp [writeSlot]
    · intro j cur hj
      simp at hj
    · rintro ⟨j, cur, hj, _⟩
      simp at hj
  | cons head rest ih =>
    cases head with
    | none =>
      rw [writeLoop] at h
      cases heq : writeLoop (C := C) oracle rest (i + 1) m with
      | error e =>
        simp only [heq] at h
        cases h
      | ok res =>
        obtain ⟨r0, m0, f0⟩ := res
        simp only [heq] at h
        obtain ⟨hr, hm, hf⟩ : r = none :: r0 ∧ m' = m0 ∧ f = f0 := by
          cases h
          exact ⟨rfl, rfl, rfl⟩
        subst hr hm
        obtain ⟨ihfat, ihslot, ihle, ihok, ihpend⟩ := ih (i + 1) m heq
        refine ⟨live_cons (P := fun idx _ => ∀ e, oracle idx ≠ Outcome.fatal e) i none rest
            (by intro cur hcur; cases hcur) ihfat,
          slots_cons oracle i none none rest r0 (by simp [writeSlot]) ihslot, ihle,
          live_cons (P := fun idx _ => ∀ k, oracle idx = Outcome.ok k → m' ≤ k) i none rest
            (by intro cur hcur; cases hcur) ihok, ?_⟩
        intro hex
        rcases exists_live_cons (Q := fun idx _ => oracle idx = Outcome.pending) i none rest hex with ⟨cur, hcur, _⟩ | hex'
        · cases hcur
        · exact ihpend hex'
    | some cur0 =>
      rw [writeLoop] at h
      cases horacle : oracle i with
      | ok k =>
        simp only [horacle] at h
        cases heq : writeLoop (C := C) oracle rest (i + 1) (min k m) with
        | error e =>
          simp only [heq] at h
          cases h
        | ok res =>
          obtain ⟨r0, m0, f0⟩ := res
          simp only [heq] at h
          obtain ⟨hr, hm, hf⟩ :
              r = some ((cur0 + k) % C) :: r0 ∧ m' = m0 ∧ f = (decide (k = 0) || f0) := by
            cases h
            exact ⟨rfl, rfl, rfl⟩
          subst hr hm
          obtain ⟨ihfat, ihslot, ihle, ihok, ihpend⟩ := ih (i + 1) (min k m) heq
          refine ⟨live_cons (P := fun idx _ => ∀ e, oracle idx ≠ Outcome.fatal e) i
              (some cur0) rest (by intro cur hcur e; rw [horacle]; simp) ihfat,
            slots_cons oracle i (some cur0) (some ((cur0 + k) % C)) rest r0
              (by simp [writeSlot, horacle]) ihslot,
            by omega,
            live_cons (P := fun idx _ => ∀ kk, oracle idx = Outcome.ok kk → m' ≤ kk) i
              (some cur0) rest ?_ ihok, ?_⟩
          · intro cur hcur k' hk'
            rw [horacle] at hk'
            cases hk'
            omega
          · intro hex
            rcases exists_live_cons (Q := fun idx _ => oracle idx = Outcome.pending) i (some cur0) rest hex with ⟨cur, _, hq⟩ | hex'
            · rw [horacle] at hq
              cases hq
            · exact ihpend hex'
      | brokenPipe =>
        simp only [horacle] at h
        cases heq : writeLoop (C := C) oracle rest (i + 1) m with
        | error e =>
          simp only [heq] at h
          cases h
        | ok res =>
          obtain ⟨r0, m0, f0⟩ := res
          simp only [heq] at h
          obtain ⟨hr, hm, hf⟩ : r = none :: r0 ∧ m' = m0 ∧ f = f0 := by
            cases h
            exact ⟨rfl, rfl, rfl⟩
          subst hr hm
          obtain ⟨ihfat, ihslot, ihle, ihok, ihpend⟩ := ih (i + 1) m heq
          refine ⟨live_cons (P := fun idx _ => ∀ e, oracle idx ≠ Outcome.fatal e) i
              (some cur0) rest (by intro cur hcur e; rw [horacle]; simp) ihfat,
            slots_cons oracle i (some cur0) none rest r0
              (by simp [writeSlot, horacle]) ihslot, ihle,
            live_cons (P := fun idx _ => ∀ kk, oracle idx = Outcome.ok kk → m' ≤ kk) i
              (some cur0) rest ?_ ihok, ?_⟩
          · intro cur hcur k' hk'
            rw [horacle] at hk'
            cases hk'
          · intro hex
            rcases exists_live_cons (Q := fun idx _ => oracle idx = Outcome.pending) i (some cur0) rest hex with ⟨cur, _, hq⟩ | hex'
            · rw [horacle] at hq
              cases hq
            · exact ihpend hex'
      | fatal e =>
        simp only [horacle] at h
        cases h
      | pending =>
        simp only [horacle] at h
        cases heq : writeLoop (C := C) oracle rest (i + 1) 0 with
        | error e =>
          simp only [heq] at h
          cases h
        | ok res =>
          obtain ⟨r0, m0, f0⟩ := res
          simp only [heq] at h
          obtain ⟨hr, hm, hf⟩ : r = some cur0 :: r0 ∧ m' = m0 ∧ f = f0 := by
            cases h
            exact ⟨rfl, rfl, rfl⟩
          subst hr hm
          obtain ⟨ihfat, ihslot, ihle, ihok, ihpend⟩ := ih (i + 1) 0 heq
          have hm0 : m' = 0 := by omega
          refine ⟨live_cons (P := fun idx _ => ∀ e, oracle idx ≠ Outcome.fatal e) i
              (some cur0) rest (by intro cur hcur e; rw [horacle]; simp) ihfat,
            slots_cons oracle i (some cur0) (some cur0) rest r0
              (by simp [writeSlot, horacle]) ihslot, by omega,
            live_cons (P := fun idx _ => ∀ kk, oracle idx = Outcome.ok kk → m' ≤ kk) i
              (some cur0) rest ?_ (fun j cur hj kk hk => by omega), fun _ => hm0⟩
          intro cur hcur k' hk'
          omega

/-- Contributions to the round's running minimum, in the spec's terms: a
connection completing with `k` contributes `k`, a would-blocked connection
contributes `0`, vacant slots and removed (broken-pipe) connections do not
participate. -/
def contribs (oracle : Nat → Outcome) : List (Option Nat) → Nat → List Nat
  | [], _ => []
  | none :: t, i => contribs oracle t (i + 1)
  | some _ :: t, i =>
    match oracle i with
    | .ok k => k :: contribs oracle t (i + 1)
    | .pending => 0 :: contribs oracle t (i + 1)
    | _ => contribs oracle t (i + 1)

/-- The minimum the spec says the write step tracks, initialized (as in
the code) to the number of buffered bytes. -/
def trackedMin {C : Nat} (s : SState C) (oracle : Nat → Outcome) : Nat :=
  (contribs oracle s.conns 0).foldr min s.buffer.len

theorem foldr_min_min (l : List Nat) (a b : Nat) :
    l.foldr min (min a b) = min a (l.foldr min b) := by
  induction l with
  | nil => rfl
  | cons x t ih =>
    simp only [List.foldr, ih]
    omega

theorem foldr_min_zero (l : List Nat) : l.foldr min 0 = 0 := by
  induction l with
  | nil => rfl
  | cons x t ih =>
    simp only [List.foldr, ih]
    omega

theorem writeLoop_min {C : Nat} (oracle : Nat → Outcome) (l : List (Option Nat))
    (i m : Nat) {r : List (Option Nat)} {m' : Nat} {f : Bool}
    (h : writeLoop (C := C) oracle l i m = .ok (r, m', f)) :
    m' = (contribs oracle l i).foldr min m := by
  induction l generalizing i m r m' f with
  | nil =>
    rw [writeLoop] at h
    cases h
    rfl
  | cons head rest ih =>
    cases head with
    | none =>
      rw [writeLoop] at h
      cases heq : writeLoop (C := C) oracle rest (i + 1) m with
      | error e =>
        simp only [heq] at h
        cases h
      | ok res =>
        obtain ⟨r0, m0, f0⟩ := res
        simp only [heq] at h
        cases h
        rw [contribs]
        exact ih (i + 1) m heq
    | some cur0 =>
      rw [writeLoop] at h
      cases horacle : oracle i with
      | ok k =>
        simp only [horacle] at h
        cases heq : writeLoop (C := C) oracle rest (i + 1) (min k m) with
        | error e =>
          simp only [heq] at h
          cases h
        | ok res =>
          obtain ⟨r0, m0, f0⟩ := res
          simp only [heq] at h
          cases h
          rw [contribs, horacle]
          simp only [List.foldr]
          rw [← foldr_min_min]
          exact ih (i + 1) (min k m) heq
      | brokenPipe =>
        simp only [horacle] at h
        cases heq : writeLoop (C := C) oracle rest (i + 1) m with
        | error e =>
          simp only [heq] at h
          cases h
        | ok res =>
          obtain ⟨r0, m0, f0⟩ := res
          simp only [heq] at h
          cases h
          rw [contribs, horacle]
          exact ih (i + 1) m heq
      | fatal e =>
        simp only [horacle] at h
        cases h
      | pending =>
        simp only [horacle] at h
        cases heq : writeLoop (C := C) oracle rest (i + 1) 0 with
        | error e =>
          simp only [heq] at h
          cases h
        | ok res =>
          obtain ⟨r0, m0, f0⟩ := res
          simp only [heq] at h
          cases h
          rw [contribs, horacle]
          simp only [List.foldr]
          have h0 := ih (i + 1) 0 heq
          rw [foldr_min_zero] at h0
          rw [Nat.zero_min]
          exact h0

/-- When no live connection's sink reports a non-broken-pipe error, the
write loop completes normally. -/
theorem writeLoop_no_fatal {C : Nat} (oracle : Nat → Outcome) (l : List (Option Nat))
    (i m : Nat)
    (hnf : ∀ j cur e, l[j]? = some (some cur) → oracle (i + j) ≠ .fatal e) :
    ∃ r m' f, writeLoop (C := C) oracle l i m = .ok (r, m', f) := by
  induction l generalizing i m with
  | nil => exact ⟨[], m, false, rfl⟩
  | cons head rest ih =>
    have hrest : ∀ (mm : Nat), ∃ r m' f,
        writeLoop (C := C) oracle rest (i + 1) mm = .ok (r, m', f) := by
      intro mm
      apply ih (i + 1) mm
      intro j cur e hj
      rw [show i + 1 + j = i + (j + 1) by omega]
      exact hnf (j + 1) cur e (by simpa using hj)
    cases head with
    | none =>
      obtain ⟨r, m', f, heq⟩ := hrest m
      exact ⟨none :: r, m', f, by rw [writeLoop]; simp only [heq]⟩
    | some cur0 =>
      cases horacle : oracle i with
      | ok k =>
        obtain ⟨r, m', f, heq⟩ := hrest (min k m)
        exact ⟨some ((cur0 + k) % C) :: r, m', decide (k = 0) || f,
          by rw [writeLoop, horacle]; simp only [heq]⟩
      | brokenPipe =>
        obtain ⟨r, m', f, heq⟩ := hrest m
        exact ⟨none :: r, m', f, by rw [writeLoop, horacle]; simp only [heq]⟩
      | fatal e =>
        exact absurd horacle (by simpa using hnf 0 cur0 e (by simp))
      | pending =>
        obtain ⟨r, m', f, heq⟩ := hrest 0
        exact ⟨some cur0 :: r, m', f, by rw [writeLoop, horacle]; simp only [heq]⟩

/-- The first live connection whose sink reports a non-broken-pipe error
aborts the write loop with exactly that error. -/
theorem writeLoop_fatal {C : Nat} (oracle : Nat → Outcome) (l : List (Option Nat))
    (i m j cur e : Nat) (hj : l[j]? = some (some cur)) (he : oracle (i + j) = .fatal e)
    (hfirst : ∀ j' cur' e', j' < j → l[j']? = some (some cur') →
      oracle (i + j') ≠ .fatal e') :
    writeLoop (C := C) oracle l i m = .error e := by
  induction l generalizing i m j with
  | nil => simp at hj
  | cons head rest ih =>
    cases j with
    | zero =>
      simp at hj
      subst hj
      rw [Nat.add_zero] at he
      rw [writeLoop, he]
    | succ j' =>
      have hj' : rest[j']? = some (some cur) := by simpa using hj
      have he' : oracle (i + 1 + j') = .fatal e := by
        rw [show i + 1 + j' = i + (j' + 1) by omega]
        exact he
      have hfirst' : ∀ jj cc ee, jj < j' → rest[jj]? = some (some cc) →
          oracle (i + 1 + jj) ≠ .fatal ee := by
        intro jj cc ee hlt hjj
        rw [show i + 1 + jj = i + (jj + 1) by omega]
        exact hfirst (jj + 1) cc ee (by omega) (by simpa using hjj)
      cases head with
      | none =>
        rw [writeLoop]
        simp only [ih (i + 1) m j' hj' he' hfirst']
      | some cur0 =>
        rw [writeLoop]
        cases horacle : oracle i with
        | ok k =>
          simp only [ih (i + 1) (min k m) j' hj' he' hfirst']
        | brokenPipe =>
          simp only [ih (i + 1) m j' hj' he' hfirst']
        | fatal e0 =>
          exact absurd horacle (by
            have := hfirst 0 cur0 e0 (by omega) (by simp)
            rw [Nat.add_zero] at this
            simpa using this)
        | pending =>
          simp only [ih (i + 1) 0 j' hj' he' hfirst']

/-- C2: write-step minimum tracking.  Over a non-empty buffer, with every
live connection's sink either succeeding or would-blocking, every
connection whose vectored write completes with `k` bytes has its cursor
advanced by exactly `k` (modularly) and contributes `k` to the running
minimum; a would-blocked connection contributes zero; after visiting every
live connection the buffer's `remove` is called with the tracked minimum
exactly when it is positive (and the step reports ready with it),
otherwise the buffer is unchanged and the step reports no progress. -/
theorem poll_write_min_tracking {C : Nat} (s : SState C) (oracle : Nat → Outcome)
    (hne : ¬ s.buffer.is_empty)
    (hok : ∀ j cur, s.conns[j]? = some (some cur) →
      oracle j = .pending ∨ ∃ k, oracle j = .ok k) :
    ∃ conns' f,
      (∀ j cur k, s.conns[j]? = some (some cur) → oracle j = .ok k →
        conns'[j]? = some (some ((cur + k) % C))) ∧
      (∀ j cur, s.conns[j]? = some (some cur) → oracle j = .pending →
        conns'[j]? = some (some cur)) ∧
      (0 < trackedMin s oracle →
        pollWrite s oracle =
          .ok (⟨s.buffer.remove (trackedMin s oracle), conns'⟩,
            .ready (trackedMin s oracle), f)) ∧
      (trackedMin s oracle = 0 →
        pollWrite s oracle = .ok (⟨s.buffer, conns'⟩, .pending, f)) := by
  obtain ⟨r, m', f, heq⟩ := writeLoop_no_fatal (C := C) oracle s.conns 0 s.buffer.len
    (by
      intro j cur e hj
      rw [Nat.zero_add]
      rcases hok j cur hj with hp | ⟨k, hk⟩
      · simp [hp]
      · simp [hk])
  have htm : m' = trackedMin s oracle := writeLoop_min (C := C) oracle s.conns 0 _ heq
  obtain ⟨-, hslot, -, -, -⟩ := writeLoop_spec (C := C) oracle s.conns 0 s.buffer.len heq
  refine ⟨r, f, ?_, ?_, ?_, ?_⟩
  · intro j cur k hj hk
    have hs := hslot j
    rw [Nat.zero_add, hj] at hs
    rw [hs]
    simp [writeSlot, hk]
  · intro j cur hj hp
    have hs := hslot j
    rw [Nat.zero_add, hj] at hs
    rw [hs]
    simp [writeSlot, hp]
  · intro hpos
    rw [pollWrite, if_neg hne]
    simp only [heq]
    rw [htm, if_pos hpos]
  · intro hzero
    rw [pollWrite, if_neg hne]
    simp only [heq]
    rw [htm, hzero]
    simp

def c2State : SState 4 :=
  ⟨applyOps (RingBuffer.new 4) [BufOp.write [1, 2]], [some 0, some 1]⟩

def c2Oracle : Nat → Outcome := fun j => if j = 0 then .ok 2 else .ok 1

theorem poll_write_min_tracking_witness :
    ¬ c2State.buffer.is_empty ∧ 0 < trackedMin c2State c2Oracle ∧
    ∃ conns' f,
      (∀ j cur k, c2State.conns[j]? = some (some cur) → c2Oracle j = .ok k →
        conns'[j]? = some (some ((cur + k) % 4))) ∧
      (∀ j cur, c2State.conns[j]? = some (some cur) → c2Oracle j = .pending →
        conns'[j]? = some (some cur)) ∧
      (0 < trackedMin c2State c2Oracle →
        pollWrite c2State c2Oracle =
          .ok (⟨c2State.buffer.remove (trackedMin c2State c2Oracle), conns'⟩,
            .ready (trackedMin c2State c2Oracle), f)) ∧
      (trackedMin c2State c2Oracle = 0 →
        pollWrite c2State c2Oracle = .ok (⟨c2State.buffer, conns'⟩, .pending, f)) :=
  ⟨by decide, by decide,
    poll_write_min_tracking c2State c2Oracle (by decide)
      (by
        intro j cur hj
        right
        by_cases h : j = 0
        · exact ⟨2, by simp [c2Oracle, h]⟩
        · exact ⟨1, by simp [c2Oracle, h]⟩)⟩

/-- C9 (amended): error taxonomy of the write step.  When a live
connection's vectored write fails with a broken-pipe error, that
connection alone is removed from the table and the poll does not error;
if at least one other live connection exists and every other live
connection would-blocks, the buffer is left unchanged and the step
reports no progress.  When a write fails with any other I/O error (and no
earlier-visited connection does), the poll completes with exactly that
error.  (Without another live connection the broken-pipe corner empties
the buffer — see the counterexample — which is the one amendment to the
claim.) -/
theorem poll_write_error_taxonomy {C : Nat} (s : SState C) (oracle : Nat → Outcome) :
    (∀ j cur, s.conns[j]? = some (some cur) → oracle j = .brokenPipe →
      (∀ j' cur', j' ≠ j → s.conns[j']? = some (some cur') → oracle j' = .pending) →
      (∃ j' cur', j' ≠ j ∧ s.conns[j']? = some (some cur')) →
      ¬ s.buffer.is_empty →
      ∃ f, pollWrite s oracle = .ok (⟨s.buffer, slabRemove s.conns j⟩, .pending, f)) ∧
    (∀ j cur e, s.conns[j]? = some (some cur) → oracle j = .fatal e →
      (∀ j' cur' e', j' < j → s.conns[j']? = some (some cur') → oracle j' ≠ .fatal e') →
      ¬ s.buffer.is_empty →
      pollWrite s oracle = .error e) := by
  constructor
  · intro j cur hj hbp hothers hexists hne
    obtain ⟨r, m', f, heq⟩ := writeLoop_no_fatal (C := C) oracle s.conns 0 s.buffer.len
      (by
        intro j' cur' e hj'
        rw [Nat.zero_add]
        by_cases hjj : j' = j
        · subst hjj
          rw [hj] at hj'
          cases hj'
          simp [hbp]
        · simp [hothers j' cur' hjj hj'])
    obtain ⟨-, hslot, -, -, hpend⟩ :=
      writeLoop_spec (C := C) oracle s.conns 0 s.buffer.len heq
    obtain ⟨j', cur', hjj, hj'⟩ := hexists
    have hm0 : m' = 0 := hpend ⟨j', cur', hj', by rw [Nat.zero_add]; exact hothers j' cur' hjj hj'⟩
    have hr : r = slabRemove s.conns j := by
      apply List.ext_getElem?
      intro idx
      have hs := hslot idx
      rw [Nat.zero_add] at hs
      cases hcase : s.conns[idx]? with
      | none =>
        rw [hs, hcase]
        have hlen : s.conns.length ≤ idx := by
          by_contra hc
          rw [List.getElem?_eq_getElem (by omega)] at hcase
          cases hcase
        rw [writeSlot]
        exact (List.getElem?_eq_none (by simp [slabRemove]; omega)).symm
      | some entry =>
        cases entry with
        | none =>
          have hne' : idx ≠ j := by
            intro hh
            rw [hh, hj] at hcase
            cases hcase
          rw [hs, hcase, writeSlot, slabRemove, List.getElem?_set_ne (Ne.symm hne'), hcase]
        | some cur'' =>
          by_cases hjj' : idx = j
          · subst hjj'
            rw [hj] at hcase
            cases hcase
            rw [hs, hj, writeSlot]
            simp only [hbp]
            have hlt : idx < s.conns.length := by
              by_contra hc
              rw [List.getElem?_eq_none (by omega)] at hj
              cases hj
            rw [slabRemove_at s.conns idx hlt]
          · rw [hs, hcase, writeSlot]
            simp only [hothers idx cur'' hjj' hcase]
            rw [slabRemove, List.getElem?_set_ne (Ne.symm hjj'), hcase]
    refine ⟨f, ?_⟩
    rw [pollWrite, if_neg hne]
    simp only [heq]
    rw [hm0, hr]
    simp
  · intro j cur e hj hf hfirst hne
    have hloop := writeLoop_fatal (C := C) oracle s.conns 0 s.buffer.len j cur e
      (by simpa using hj) (by rw [Nat.zero_add]; exact hf)
      (by
        intro j' cur' e' hlt hj'
        rw [Nat.zero_add]
        exact hfirst j' cur' e' hlt hj')
    rw [pollWrite, if_neg hne]
    simp only [hloop]

def c9State : SState 4 :=
  ⟨applyOps (RingBuffer.new 4) [BufOp.write [1, 2]], [some 0]⟩

/-- C9 counterexample: when the connection hitting the broken pipe is the
only live connection, the buffer does NOT stay unchanged — the running
minimum stays at `len`, so the step removes every buffered byte and even
reports ready.  This refutes the claim's unconditional "all other
connections and the buffer are unchanged". -/
theorem poll_write_broken_pipe_counterexample :
    pollWrite c9State (fun _ => Outcome.brokenPipe) =
      .ok (⟨c9State.buffer.remove 2, [none]⟩, .ready 2, false) ∧
    c9State.buffer.remove 2 ≠ c9State.buffer := by
  constructor
  · rfl
  · decide

def c9wState : SState 4 :=
  ⟨applyOps (RingBuffer.new 4) [BufOp.write [1, 2]], [some 0, some 0]⟩

def c9wOracle : Nat → Outcome := fun j => if j = 0 then .brokenPipe else .pending

theorem poll_write_error_taxonomy_witness :
    ¬ c9wState.buffer.is_empty ∧
    ∃ f, pollWrite c9wState c9wOracle =
      .ok (⟨c9wState.buffer, slabRemove c9wState.conns 0⟩, .pending, f) :=
  ⟨by decide,
    (poll_write_error_taxonomy c9wState c9wOracle).1 0 0 (by decide) (by decide)
      (by
        intro j' cur' hjne hj'
        match j' with
        | 0 => exact absurd rfl hjne
        | 1 => rfl
        | (n + 2) => simp [c9wState] at hj')
      ⟨1, 0, by decide, by decide⟩ (by decide)⟩

/-! ## Reachable server states and the no-data-loss invariant -/

/-- Sink compliance for one write pass: a successful vectored write
returns at most the total number of bytes handed to it
(`slices_from(cursor)`). -/
def WOracleLE {C : Nat} (s : SState C) (oracle : Nat → Outcome) : Prop :=
  ∀ j cur k, s.conns[j]? = some (some cur) → oracle j = .ok k →
    k ≤ s.buffer.slicesTotal cur

/-- Source compliance for one read pass: a ready read fits in the unused
region handed to it. -/
def ROracleLE {C : Nat} (s : SState C) (ro : Nat → ROutcome) : Prop :=
  (∀ bytes, ro 0 = .ready bytes → bytes.length ≤ s.buffer.unused_slices.1.2) ∧
  (∀ bytes, ro 1 = .ready bytes → bytes.length ≤ s.buffer.unused_slices.2.2)

/-- States reachable from `listen()` through the accept, write and read
phases, driven by contract-compliant I/O. -/
inductive Reach (C : Nat) : SState C → Prop where
  | init : Reach C (listenInit C)
  | accept {s : SState C} : Reach C s → Reach C (pollAccept s).1
  | write {s : SState C} {oracle : Nat → Outcome} {s' : SState C} {r : PollR} {f : Bool} :
      Reach C s → WOracleLE s oracle → pollWrite s oracle = .ok (s', r, f) → Reach C s'
  | read {s : SState C} {ro : Nat → ROutcome} {s' : SState C} {r : PollR} {f : Bool} :
      Reach C s → ROracleLE s ro → pollRead s ro = .ok (s', r, f) → Reach C s'

/-- The no-data-loss invariant: the buffer is well-formed and every live
connection's cursor sits at `start + d` for some `d ≤ len` — the buffer's
start is never past a byte some live connection still has to write. -/
def SInv {C : Nat} (s : SState C) : Prop :=
  s.buffer.WF ∧ ∀ (j cur : Nat), s.conns[j]? = some (some cur) →
    ∃ d, d ≤ s.buffer.len ∧ cur = (s.buffer.cursor + d) % C

theorem valid_cursor_small {C : Nat} (len cursor cur : Nat) (hC : 0 < C) (hl : len ≤ C)
    (hcur : cursor < C) (h : ∃ d, d ≤ len ∧ cur = (cursor + d) % C) :
    ∃ d, d ≤ len ∧ d < C ∧ cur = (cursor + d) % C := by
  obtain ⟨d, hd, hc2⟩ := h
  rcases Nat.lt_or_ge d C with h1 | h1
  · exact ⟨d, hd, h1, hc2⟩
  · have hdC : d = C := by omega
    refine ⟨0, by omega, by omega, ?_⟩
    rw [hc2, hdC, Nat.add_mod_right, Nat.add_zero]

theorem SInv_init {C : Nat} (hC : 0 < C) : SInv (listenInit C) := by
  refine ⟨⟨by simp [listenInit, RingBuffer.new], by simpa [listenInit, RingBuffer.new] using hC,
    by simp [listenInit, RingBuffer.new]⟩, ?_⟩
  intro j cur hj
  match j, hj with
  | 0, hj =>
    refine ⟨0, Nat.zero_le _, ?_⟩
    simp [listenInit, slabInsert] at hj
    rw [← hj]
    simp [listenInit, RingBuffer.new, RingBuffer.endPos]
  | j + 1, hj => simp [listenInit, slabInsert] at hj

theorem SInv_accept {C : Nat} {s : SState C} (h : SInv s) : SInv (pollAccept s).1 := by
  obtain ⟨hwf, hconns⟩ := h
  refine ⟨hwf, ?_⟩
  intro j cur hj
  by_cases hjj : j = slabNextId s.conns
  · subst hjj
    rw [pollAccept] at hj
    simp only [] at hj
    rw [slabInsert_at] at hj
    cases hj
    exact ⟨s.buffer.len, le_rfl, rfl⟩
  · rw [pollAccept] at hj
    simp only [] at hj
    rw [slabInsert_other _ _ _ hjj] at hj
    exact hconns j cur hj

theorem readLoop_length (ro : Nat → ROutcome) (regions : List (Nat × Nat)) (i : Nat)
    (data : List Nat) (total : Nat) {d' : List Nat} {t : Nat} {f : Bool}
    (hreg : ∀ (j p l : Nat), regions[j]? = some (p, l) → p + l ≤ data.length)
    (hro : ∀ (j p l : Nat) (bytes : List Nat), regions[j]? = some (p, l) →
      ro (i + j) = .ready bytes → bytes.length ≤ l)
    (h : readLoop ro regions i data total = .ok (d', t, f)) :
    d'.length = data.length := by
  induction regions generalizing i data total d' t f with
  | nil =>
    rw [readLoop] at h
    cases h
    rfl
  | cons reg rest ih =>
    obtain ⟨p, l⟩ := reg
    rw [readLoop] at h
    by_cases hl : l = 0
    · rw [if_pos hl] at h
      cases h
      rfl
    · rw [if_neg hl] at h
      cases hro0 : ro i with
      | ready bytes =>
        simp only [hro0] at h
        have hp : p + bytes.length ≤ data.length := by
          have h1 := hreg 0 p l (by simp)
          have h2 := hro 0 p l bytes (by simp) (by rw [Nat.add_zero]; exact hro0)
          omega
        cases heq : readLoop ro rest (i + 1) (setAt data p bytes) (total + bytes.length) with
        | error e =>
          simp only [heq] at h
          cases h
        | ok res =>
          obtain ⟨d0, t0, f0⟩ := res
          simp only [heq] at h
          cases h
          have hrec := ih (i + 1) (setAt data p bytes) (total + bytes.length)
            (by
              intro j pp ll hj
              rw [setAt_length _ _ _ hp]
              exact hreg (j + 1) pp ll (by simpa using hj))
            (by
              intro j pp ll bb hj hr
              refine hro (j + 1) pp ll bb (by simpa using hj) ?_
              rw [show i + (j + 1) = i + 1 + j by omega]
              exact hr)
            heq
          rw [hrec, setAt_length _ _ _ hp]
      | pending =>
        simp only [hro0] at h
        cases h
        rfl
      | fatal e =>
        simp only [hro0] at h
        cases h

theorem SInv_read {C : Nat} {s : SState C} {ro : Nat → ROutcome} {s' : SState C}
    {r : PollR} {f : Bool} (h : SInv s) (hle : ROracleLE s ro)
    (heq : pollRead s ro = .ok (s', r, f)) : SInv s' := by
  obtain ⟨⟨hdata, hc, hl⟩, hconns⟩ := h
  have hus := @RingBuffer.unused_slices_eq C s.buffer ⟨hdata, hc, hl⟩
  rw [pollRead] at heq
  cases hloop : readLoop ro [s.buffer.unused_slices.1, s.buffer.unused_slices.2] 0
      s.buffer.data 0 with
  | error e =>
    simp only [hloop] at heq
    cases heq
  | ok res =>
    obtain ⟨data', total, f0⟩ := res
    simp only [hloop] at heq
    have hlen : data'.length = s.buffer.data.length := by
      have hle1 : s.buffer.unused_slices.1.1 + s.buffer.unused_slices.1.2 ≤ C := by
        rw [hus]
        split <;> simp <;> omega
      have hle2 : s.buffer.unused_slices.2.1 + s.buffer.unused_slices.2.2 ≤ C := by
        rw [hus]
        split <;> simp <;> omega
      refine readLoop_length ro _ 0 _ 0 ?_ ?_ hloop
      · intro j p l hj
        match j, hj with
        | 0, hj =>
          have h1 : s.buffer.unused_slices.1 = (p, l) := by simpa using hj
          have hp : s.buffer.unused_slices.1.1 = p := by rw [h1]
          have hl' : s.buffer.unused_slices.1.2 = l := by rw [h1]
          omega
        | 1, hj =>
          have h1 : s.buffer.unused_slices.2 = (p, l) := by simpa using hj
          have hp : s.buffer.unused_slices.2.1 = p := by rw [h1]
          have hl' : s.buffer.unused_slices.2.2 = l := by rw [h1]
          omega
        | j + 2, hj => simp at hj
      · intro j p l bytes hj hr
        match j, hj with
        | 0, hj =>
          have h1 : s.buffer.unused_slices.1 = (p, l) := by simpa using hj
          have hl' : s.buffer.unused_slices.1.2 = l := by rw [h1]
          have h2 := hle.1 bytes (by rw [Nat.add_zero] at hr; exact hr)
          omega
        | 1, hj =>
          have h1 : s.buffer.unused_slices.2 = (p, l) := by simpa using hj
          have hl' : s.buffer.unused_slices.2.2 = l := by rw [h1]
          have h2 := hle.2 bytes hr
          omega
        | j + 2, hj => simp at hj
    by_cases hpos : 0 < total
    · rw [if_pos hpos] at heq
      cases heq
      refine ⟨⟨by simpa [RingBuffer.assume_init] using hlen.trans hdata, hc,
        by simp [RingBuffer.assume_init]⟩, ?_⟩
      intro j cur hj
      obtain ⟨d, hd, hcur⟩ := hconns j cur hj
      exact ⟨d, by simp [RingBuffer.assume_init]; omega, hcur⟩
    · rw [if_neg hpos] at heq
      cases heq
      exact ⟨⟨hlen.trans hdata, hc, hl⟩, hconns⟩

theorem SInv_write {C : Nat} {s : SState C} {oracle : Nat → Outcome} {s' : SState C}
    {r : PollR} {f : Bool} (h : SInv s) (hle : WOracleLE s oracle)
    (heq : pollWrite s oracle = .ok (s', r, f)) : SInv s' := by
  obtain ⟨⟨hdata, hc, hl⟩, hconns⟩ := h
  rw [pollWrite] at heq
  by_cases hne : s.buffer.is_empty
  · rw [if_pos hne] at heq
    cases heq
    exact ⟨⟨hdata, hc, hl⟩, hconns⟩
  · rw [if_neg hne] at heq
    cases hloop : writeLoop (C := C) oracle s.conns 0 s.buffer.len with
    | error e =>
      simp only [hloop] at heq
      cases heq
    | ok res =>
      obtain ⟨conns', m', f0⟩ := res
      simp only [hloop] at heq
      obtain ⟨-, hslot, hmle, hmok, hpend⟩ :=
        writeLoop_spec (C := C) oracle s.conns 0 s.buffer.len hloop
      by_cases hpos : 0 < m'
      · rw [if_pos hpos] at heq
        cases heq
        refine ⟨⟨hdata, Nat.mod_lt _ (by omega), by simp [RingBuffer.remove]; omega⟩, ?_⟩
        intro j cur' hj
        have hs := hslot j
        rw [Nat.zero_add] at hs
        rw [hs] at hj
        cases hcase : s.conns[j]? with
        | none =>
          rw [hcase, writeSlot] at hj
          cases hj
        | some entry =>
          cases entry with
          | none =>
            rw [hcase, writeSlot] at hj
            cases hj
          | some cur =>
            rw [hcase] at hj
            obtain ⟨d, hd, hdC, hcur⟩ := valid_cursor_small s.buffer.len s.buffer.cursor cur
              (by omega) hl hc (hconns j cur hcase)
            cases horacle : oracle j with
            | ok k =>
              rw [writeSlot] at hj
              simp only [horacle] at hj
              cases hj
              have hk : k ≤ s.buffer.len - d := by
                have := hle j cur k hcase horacle
                rwa [hcur, RingBuffer.slicesTotal_valid ⟨hdata, hc, hl⟩ d hd hdC] at this
              have hmk : m' ≤ k := hmok j cur hcase k (by rw [Nat.zero_add]; exact horacle)
              refine ⟨d + k - m', ?_, ?_⟩
              · simp [RingBuffer.remove]
                omega
              · rw [RingBuffer.remove]
                simp only [Nat.mod_add_mod]
                rw [hcur, Nat.mod_add_mod]
                congr 1
                omega
            | brokenPipe =>
              rw [writeSlot] at hj
              simp only [horacle] at hj
              cases hj
            | fatal e =>
              rw [writeSlot] at hj
              simp only [horacle] at hj
              cases hj
            | pending =>
              exact absurd (hpend ⟨j, cur, hcase, by rw [Nat.zero_add]; exact horacle⟩)
                (by omega)
      · rw [if_neg hpos] at heq
        cases heq
        refine ⟨⟨hdata, hc, hl⟩, ?_⟩
        intro j cur' hj
        have hs := hslot j
        rw [Nat.zero_add] at hs
        rw [hs] at hj
        cases hcase : s.conns[j]? with
        | none =>
          rw [hcase, writeSlot] at hj
          cases hj
        | some entry =>
          cases entry with
          | none =>
            rw [hcase, writeSlot] at hj
            cases hj
          | some cur =>
            rw [hcase] at hj
            obtain ⟨d, hd, hdC, hcur⟩ := valid_cursor_small s.buffer.len s.buffer.cursor cur
              (by omega) hl hc (hconns j cur hcase)
            cases horacle : oracle j with
            | ok k =>
              rw [writeSlot] at hj
              simp only [horacle] at hj
              cases hj
              have hk : k ≤ s.buffer.len - d := by
                have := hle j cur k hcase horacle
                rwa [hcur, RingBuffer.slicesTotal_valid ⟨hdata, hc, hl⟩ d hd hdC] at this
              refine ⟨d + k, ?_, ?_⟩
              · show d + k ≤ s.buffer.len
                omega
              · show (cur + k) % C = (s.buffer.cursor + (d + k)) % C
                rw [hcur, Nat.mod_add_mod]
                congr 1
                omega
            | brokenPipe =>
              rw [writeSlot] at hj
              simp only [horacle] at hj
              cases hj
            | fatal e =>
              rw [writeSlot] at hj
              simp only [horacle] at hj
              cases hj
            | pending =>
              rw [writeSlot] at hj
              simp only [horacle] at hj
              cases hj
              exact ⟨d, hd, hcur⟩

/-- C3: no-data-loss invariant.  In every state of the server reachable
from `listen()` via the accept, write and read phases (with
contract-compliant I/O), the buffer is well-formed and every live
connection's cursor lies in the valid logical range `[start, end]`
(`cursor = start + d` for some `d ≤ len`): the buffer's start never
advances past a byte some live connection has not yet written. -/
theorem no_data_loss_invariant {C : Nat} (hC : 0 < C) (s : SState C) (h : Reach C s) :
    SInv s := by
  induction h with
  | init => exact SInv_init hC
  | accept _ ih => exact SInv_accept ih
  | write _ hle heq ih => exact SInv_write ih hle heq
  | read _ hle heq ih => exact SInv_read ih hle heq

theorem no_data_loss_invariant_witness :
    0 < 4 ∧ Reach 4 (pollAccept (listenInit 4)).1 ∧ SInv (pollAccept (listenInit 4)).1 :=
  ⟨by decide, Reach.accept Reach.init,
    no_data_loss_invariant (by decide) (pollAccept (listenInit 4)).1
      (Reach.accept Reach.init)⟩

def c5Read : Nat → ROutcome := fun j => if j = 0 then .ready [7, 8, 9] else .pending

def c5Mid : SState 4 := ⟨⟨[7, 8, 9, 0], 0, 3⟩, [some 0]⟩

def c5State : SState 4 := (pollAccept c5Mid).1

def c5Oracle : Nat → Outcome := fun j => if j = 0 then .ok 1 else .ok 0

/-- C5: the debug assertions CAN fail in reachable executions whose I/O
primitives meet the stated non-blocking contract, marking a code bug.
Read side: from the initial `listen` state, a child whose stdout is at
end-of-stream answers the first `poll_read` Ready with zero bytes filled
(which the stated contract permits exactly at end-of-stream), and
`debug_assert!(bytes_read != 0)` is violated (the model's `true` flag).
Write side: after reading three bytes and accepting one connection
(cursor = end), the caught-up connection is handed two empty regions, its
sink compliantly returns `Ok(0)` (a zero-byte completion on empty
regions), and `debug_assert!(bytes_written != 0)` is violated. -/
theorem debug_asserts_can_fail :
    (0 : Nat) < (listenInit 4).buffer.unused_slices.1.2 ∧
    (∃ s' r, pollRead (listenInit 4) (fun _ => ROutcome.ready []) = .ok (s', r, true)) ∧
    pollRead (listenInit 4) c5Read = .ok (c5Mid, .ready 3, false) ∧
    c5State.buffer.slicesTotal 3 = 0 ∧
    (1 : Nat) ≤ c5State.buffer.slicesTotal 0 ∧
    ¬ c5State.buffer.is_empty ∧
    (∃ s' r, pollWrite c5State c5Oracle = .ok (s', r, true)) :=
  ⟨by decide, ⟨_, _, rfl⟩, rfl, by decide, by decide, by decide, ⟨_, _, rfl⟩⟩

/-- C8 (amended): forward-only attachment.  Every connection is created
with its cursor equal to the buffer's current `end()`: `listen` registers
the server's stdout as connection 0 with cursor = `end()`, and
`poll_accept` inserts every accepted connection with cursor = `end()` at
the moment of acceptance.  Whenever the buffer is NOT full at that moment,
`slices_from` at that cursor returns two empty regions, so the new
connection sees only bytes arriving after attachment.  (When the buffer is
full at attachment, `end()` coincides with `start()` and the connection is
offered the entire buffered history — see the counterexample, the one
corner the original claim gets wrong.) -/
theorem forward_only_attachment {C : Nat} (s : SState C) :
    (listenInit C).conns = [some ((RingBuffer.new C).endPos)] ∧
    ((pollAccept s).1.conns)[(pollAccept s).2]? = some (some s.buffer.endPos) ∧
    (s.buffer.WF → ¬ s.buffer.is_full →
      s.buffer.slices_from s.buffer.endPos = ([], [])) :=
  ⟨rfl, slabInsert_at s.conns s.buffer.endPos,
    fun hwf hnf => RingBuffer.slices_from_endPos_empty hwf hnf⟩

theorem forward_only_attachment_witness :
    ((pollAccept (listenInit 4)).1.conns)[(pollAccept (listenInit 4)).2]? =
      some (some ((listenInit 4).buffer.endPos)) ∧
    ((listenInit 4).buffer.WF ∧ ¬ (listenInit 4).buffer.is_full ∧
      (listenInit 4).buffer.slices_from (listenInit 4).buffer.endPos = ([], [])) :=
  ⟨(forward_only_attachment (listenInit 4)).2.1,
    by decide, by decide,
    (forward_only_attachment (listenInit 4)).2.2 (by decide) (by decide)⟩

def fullState : SState 4 :=
  ⟨applyOps (RingBuffer.new 4) [BufOp.write [1, 2, 3, 4]], [some 0]⟩

/-- C8 counterexample: a connection accepted while the buffer is full is
created with cursor = `end()` = `start()`, and the bytes subsequently
offered to it (`slices_from` at its creation cursor) are the entire
buffered history — four bytes of output produced before it attached —
refuting "sees only bytes arriving after attachment and never prior
history". -/
theorem forward_only_attachment_counterexample :
    ((pollAccept fullState).1.conns)[(pollAccept fullState).2]? =
      some (some fullState.buffer.endPos) ∧
    fullState.buffer.slicesCat fullState.buffer.endPos = [1, 2, 3, 4] := by
  constructor
  · decide
  · decide
